import Mathlib

/-!
Formal model of `solartoolbox/signalproc.py` (solarspatialtools).

Machine floats are modelled by real numbers, complex arrays by functions
`Fin N → ℂ`, and pandas objects by lists or index functions.  Fallible
code (raised `ValueError` / `IndexError`) is modelled with `Except`.
-/

open Complex Finset

noncomputable section

/-! ### Embedded definitions (translated from `signalproc.py` and its
numpy/scipy collaborators) -/

/-- numpy `np.fft.fft`: `A_k = Σ_m a_m · exp(-2πi·k·m/N)`. -/
def npfft (N : ℕ) (x : Fin N → ℂ) : Fin N → ℂ :=
  fun k => ∑ m : Fin N, x m * Complex.exp ((-(2 * Real.pi * k.val * m.val / N) : ℝ) * Complex.I)

/-- numpy `np.fft.ifft`: `a_m = (1/N) Σ_k A_k · exp(2πi·m·k/N)`. -/
def npifft (N : ℕ) (y : Fin N → ℂ) : Fin N → ℂ :=
  fun n => (N : ℂ)⁻¹ * ∑ k : Fin N, y k * Complex.exp (((2 * Real.pi * n.val * k.val / N) : ℝ) * Complex.I)

/-- numpy `np.fft.fftfreq(N, d)`: bin `k` is `k/(N·d)` for `k ≤ (N-1)/2`, else `(k-N)/(N·d)`. -/
def npfftfreq (N : ℕ) (d : ℝ) : Fin N → ℝ :=
  fun k => (if (k : ℕ) ≤ (N - 1) / 2 then (k : ℝ) else (k : ℝ) - N) / (N * d)

/-- `np.max` over a list (junk value 0 on the empty list, where numpy raises). -/
def listMax : List ℝ → ℝ
  | [] => 0
  | [a] => a
  | a :: b :: rest => max a (listMax (b :: rest))

/-- Insertion step for sorting a filter by its frequency index (pandas `argsort`). -/
def insertPair (p : ℝ × ℂ) : List (ℝ × ℂ) → List (ℝ × ℂ)
  | [] => [p]
  | q :: rest => if p.1 ≤ q.1 then p :: q :: rest else q :: insertPair p rest

/-- Sort a filter (list of (frequency, value) pairs) by ascending frequency. -/
def sortByFreq : List (ℝ × ℂ) → List (ℝ × ℂ)
  | [] => []
  | p :: rest => insertPair p (sortByFreq rest)

/-- numpy `np.mod` (result has the sign of the divisor). -/
def npmod (a b : ℝ) : ℝ := a - b * ⌊a / b⌋

/-- One wrapped difference in `np.unwrap`: reduce `dd` into `[-π, π]`,
mapping the `-π` representative to `π` when `dd > 0`. -/
def wrapDiff (dd : ℝ) : ℝ :=
  let m := npmod (dd + Real.pi) (2 * Real.pi) - Real.pi
  if m = -Real.pi ∧ dd > 0 then Real.pi else m

/-- Tail of `np.unwrap`: `prev` is the previous *original* sample and `corr`
the accumulated correction. -/
def unwrapFrom (prev corr : ℝ) : List ℝ → List ℝ
  | [] => []
  | x :: rest =>
    let dd := x - prev
    let c := if |dd| < Real.pi then 0 else wrapDiff dd - dd
    (x + (corr + c)) :: unwrapFrom x (corr + c) rest

/-- numpy `np.unwrap` with default discontinuity `π` and period `2π`. -/
def npunwrap : List ℝ → List ℝ
  | [] => []
  | x :: rest => x :: unwrapFrom x 0 rest

/-- Errors raised inside `apply_filter`. -/
inductive FiltError where
  | coverage : FiltError
  | outOfBounds : FiltError
deriving DecidableEq

/-- `scipy.interpolate.interp1d` (linear, `bounds_error=True`) evaluated at one
point; the node list must be sorted by ascending abscissa. -/
def interp1d : List (ℝ × ℝ) → ℝ → Except FiltError ℝ
  | [], _ => .error .outOfBounds
  | [(x0, y0)], t => if t = x0 then .ok y0 else .error .outOfBounds
  | (x0, y0) :: (x1, y1) :: rest, t =>
    if t < x0 then .error .outOfBounds
    else if t ≤ x1 then .ok (y0 + (y1 - y0) * (t - x0) / (x1 - x0))
    else interp1d ((x1, y1) :: rest) t

/-- `interp_tf` (magnitude/unwrapped-phase interpolation) evaluated at one target
frequency: sort the filter by frequency, interpolate `abs` and the unwrapped
`angle` separately, recombine as `mag · exp(i·phase)`. -/
def interpTfAt (filt : List (ℝ × ℂ)) (t : ℝ) : Except FiltError ℂ :=
  match interp1d ((sortByFreq filt).map (fun p => (p.1, Complex.abs p.2))) t with
  | .error e => .error e
  | .ok m =>
    match interp1d (((sortByFreq filt).map Prod.fst).zip
        (npunwrap ((sortByFreq filt).map (fun p => (p.2).arg)))) t with
    | .error e => .error e
    | .ok ph => .ok ((m : ℂ) * Complex.exp ((ph : ℝ) * Complex.I))

/-- `interp_tf` applied to every target bin; a single out-of-range bin makes the
whole interpolation fail (scipy raises). -/
def interpTfAll {N : ℕ} (fvec : Fin N → ℝ) (filt : List (ℝ × ℂ)) :
    Except FiltError (Fin N → ℂ) :=
  if _h : ∀ k, (interpTfAt filt (fvec k)).isOk then
    .ok (fun k => ((interpTfAt filt (fvec k)).toOption).getD 0)
  else .error .outOfBounds

/-- `apply_filter(input_tsig, comp_filt)`:
forward FFT scaled by `2/N`, coverage check `max(f_vec) > max(comp_filt.index)`,
filter interpolation, elementwise multiply, inverse FFT of the product scaled
by `N/2`, real part. -/
def apply_filter {N : ℕ} (x : Fin N → ℝ) (dt : ℝ) (filt : List (ℝ × ℂ)) :
    Except FiltError (Fin N → ℝ) :=
  if listMax (List.ofFn (npfftfreq N dt)) > listMax (filt.map Prod.fst) then
    .error .coverage
  else
    match interpTfAll (npfftfreq N dt) filt with
    | .error e => .error e
    | .ok interpFilt =>
      .ok (fun n =>
        (npifft N
          (fun k => npfft N (fun m => (x m : ℂ)) k * (2 / (N : ℂ)) * interpFilt k
            * ((N : ℂ) / 2)) n).re)

/-- The spatial grid of `get_1d_plant`: `np.arange(-xmax//2, xmax//2, dx)`
starts at the floor of `-xmax/2`. -/
def plantGridStart (xmax : ℝ) : ℝ := (⌊(-xmax) / 2⌋ : ℤ)

/-- Exclusive stop of the spatial grid: floor of `xmax/2`. -/
def plantGridStop (xmax : ℝ) : ℝ := (⌊xmax / 2⌋ : ℤ)

/-- Grid point `i` of the plant's x axis. -/
def plantGrid (dx xmax : ℝ) (i : ℕ) : ℝ := plantGridStart xmax + i * dx

/-- Number of grid points, `ceil((stop-start)/dx)` as in `np.arange`. -/
def plantGridLen (dx xmax : ℝ) : ℕ :=
  (⌈(plantGridStop xmax - plantGridStart xmax) / dx⌉).toNat

/-- Result of `get_1d_plant`: the density vector and the position axis (the
grid is conceptually the first `len` points of `xvec`). -/
structure Plant1D where
  len : ℕ
  xvec : ℕ → ℝ
  plant : ℕ → ℝ

/-- ASCII lower-casing of one character (Python `str.lower` on the shape tags). -/
def lowerChar (c : Char) : Char :=
  if 'A' ≤ c ∧ c ≤ 'Z' then Char.ofNat (c.toNat + 32) else c

/-- ASCII lower-casing of a string (Python `shape.lower()`). -/
def lowerStr (s : String) : String := ⟨s.data.map lowerChar⟩

/-- `get_1d_plant(centers, ref_center, width, shape, dx, xmax)`:
re-center the site positions, build the grid, then place one footprint per
center, overwriting for square/triangle and accumulating for gaussian;
an unknown shape string raises `ValueError`. -/
def get_1d_plant (centers : List ℝ) (ref_center : ℝ) (width : Option ℝ)
    (shape : String) (dx xmax : ℝ) : Except String Plant1D :=
  let w := width.getD dx
  let cs := centers.map (fun c => c - ref_center)
  let xv := plantGrid dx xmax
  if lowerStr shape = "square" then
    .ok ⟨plantGridLen dx xmax, xv,
      cs.foldl (fun prev c => fun i =>
        if xv i ≥ c - w / 2 ∧ xv i < c + w / 2 then 1 else prev i) (fun _ => 0)⟩
  else if lowerStr shape = "triangle" then
    .ok ⟨plantGridLen dx xmax, xv,
      cs.foldl (fun prev c => fun i =>
        if xv i ≥ c - w / 2 ∧ xv i < c + w / 2 then xv i - c + w / 2 else prev i) (fun _ => 0)⟩
  else if lowerStr shape = "gaussian" then
    .ok ⟨plantGridLen dx xmax, xv,
      cs.foldl (fun prev c => fun i =>
        prev i + Real.exp (-(xv i - c) ^ 2 / (2 * (w / 2.355) ^ 2))) (fun _ => 0)⟩
  else .error ("No info for plant shape: " ++ shape)

/-- The last center (in placement order) whose half-open span covers `t`. -/
def lastCovering (w t : ℝ) (cs : List ℝ) : Option ℝ :=
  cs.foldl (fun acc c => if t ≥ c - w / 2 ∧ t < c + w / 2 then some c else acc) none

/-- numpy `np.linspace(a, b, n)`: `n` evenly spaced points from `a` to `b`
inclusive. -/
def nplinspace (a b : ℝ) (n : ℕ) : List ℝ :=
  List.ofFn (fun i : Fin n => a + i * ((b - a) / ((n : ℝ) - 1)))

/-- `get_marcosfilter(s, freq)`: single-pole low-pass `k/(i·f/fc + 1)` with
`k = 1`, `fc = 0.02/sqrt(s)`; default grid `np.linspace(0, 0.5, 100)`.
(The `complex64` down-cast of the source is the identity in the real model.) -/
def get_marcosfilter (s : ℝ) (freq : Option (List ℝ)) : List (ℝ × ℂ) :=
  let fr := freq.getD (nplinspace 0 (1 / 2) 100)
  fr.map (fun f => (f, (1 : ℂ) / (Complex.I * (f : ℂ) / ((0.02 / Real.sqrt s : ℝ) : ℂ) + 1)))

/-- A pandas Series as `cleanfreq` sees it: a frequency index (entries may be
the null marker `None`) and data values. -/
structure Spectrum where
  index : List (Option ℝ)
  values : List ℂ

/-- `cleanfreq(sig)`: sets `idxlist[len(sig.index)//2] = None` and writes the
list back to `sig.index`; Python raises `IndexError` when the index is empty.
The pair models (post-state of the mutated argument, returned value): the
function body has no `return`, so the returned value is Python's `None`. -/
def cleanfreq (sig : Spectrum) : Except String (Spectrum × Option Unit) :=
  if sig.index.length / 2 < sig.index.length then
    .ok (⟨sig.index.set (sig.index.length / 2) none, sig.values⟩, none)
  else .error "IndexError: list assignment index out of range"

/-- Local `dx = x_plant[1] - x_plant[0]` of `plant1d_to_camfilter`. -/
def camDx {N : ℕ} (hN : 2 ≤ N) (x_plant : Fin N → ℝ) : ℝ :=
  x_plant ⟨1, by omega⟩ - x_plant ⟨0, by omega⟩

/-- The plant density normalized to unit sum (`plant / np.sum(plant)`). -/
def camNormPlant {N : ℕ} (plant : Fin N → ℝ) : Fin N → ℝ :=
  fun j => plant j / (∑ m : Fin N, plant m)

/-- Temporal frequency axis `np.fft.fftfreq(len(plant), dx/|cloud_speed|)`. -/
def camFreq {N : ℕ} (hN : 2 ≤ N) (x_plant : Fin N → ℝ) (cloud_speed : ℝ) : Fin N → ℝ :=
  npfftfreq N (camDx hN x_plant / |cloud_speed|)

/-- Reference delay `t_delay = np.min(x_plant) / cloud_speed`. -/
def camTdelay {N : ℕ} (hN : 2 ≤ N) (x_plant : Fin N → ℝ) (cloud_speed : ℝ) : ℝ :=
  (Finset.univ.inf' ⟨⟨0, by omega⟩, Finset.mem_univ _⟩ x_plant) / cloud_speed

/-- `plant1d_to_camfilter(plant, x_plant, cloud_speed)`: normalize, forward
transform, shift the phase by `exp(i·2π·f·t_delay)` for positive speed, and by
the conjugate of the `-t_delay`-shifted response for negative speed. -/
def plant1d_to_camfilter {N : ℕ} (hN : 2 ≤ N) (plant x_plant : Fin N → ℝ)
    (cloud_speed : ℝ) : Fin N → ℝ × ℂ :=
  fun k =>
    (camFreq hN x_plant cloud_speed k,
      if cloud_speed > 0 then
        npfft N (fun j => ((camNormPlant plant j : ℝ) : ℂ)) k
          * Complex.exp (Complex.I * ((camFreq hN x_plant cloud_speed k * (2 * Real.pi)
              * camTdelay hN x_plant cloud_speed : ℝ) : ℂ))
      else
        (starRingEnd ℂ) (npfft N (fun j => ((camNormPlant plant j : ℝ) : ℂ)) k
          * Complex.exp (Complex.I * ((camFreq hN x_plant cloud_speed k * (2 * Real.pi)
              * (-(camTdelay hN x_plant cloud_speed)) : ℝ) : ℂ))))

/-- Periodic Hann window, `scipy.signal.get_window('hanning', M)`. -/
def hannWindow (M : ℕ) : Fin M → ℝ :=
  fun n => 1 / 2 - 1 / 2 * Real.cos (2 * Real.pi * n / M)

/-- Least-squares slope over abscissae `0..M-1` (`detrend type='linear'`). -/
def lsSlope (M : ℕ) (y : Fin M → ℝ) : ℝ :=
  (M * (∑ t : Fin M, (t : ℝ) * y t) - (∑ t : Fin M, (t : ℝ)) * (∑ t : Fin M, y t))
    / (M * (∑ t : Fin M, ((t : ℝ)) ^ 2) - (∑ t : Fin M, (t : ℝ)) ^ 2)

/-- Least-squares intercept of the linear detrend fit. -/
def lsIntercept (M : ℕ) (y : Fin M → ℝ) : ℝ :=
  ((∑ t : Fin M, y t) - lsSlope M y * (∑ t : Fin M, (t : ℝ))) / M

/-- `scipy.signal.detrend(seg, type='linear')`: subtract the least-squares
line. -/
def detrendLinear (M : ℕ) (y : Fin M → ℝ) : Fin M → ℝ :=
  fun j => y j - (lsSlope M y * j + lsIntercept M y)

/-- Segment `s` (start `s·step`, length `nperseg`) of the signal, linearly
detrended and Hann-windowed, as the complex input of the segment FFT. -/
def windowedSeg (x : ℕ → ℝ) (nperseg step s : ℕ) : Fin nperseg → ℂ :=
  fun j => ((detrendLinear nperseg (fun t : Fin nperseg => x (s * step + t)) j
      * hannWindow nperseg j : ℝ) : ℂ)

/-- The segment DFT evaluated at bin `k` (a natural number, `k ≤ M/2` for the
one-sided spectrum scipy returns). -/
def dftAt (M : ℕ) (v : Fin M → ℂ) (k : ℕ) : ℂ :=
  ∑ m : Fin M, v m * Complex.exp ((-(2 * Real.pi * k * m.val / M) : ℝ) * Complex.I)

/-- `nperseg = int(len(x) // navgs)`. -/
def welchNperseg (N navgs : ℕ) : ℕ := N / navgs

/-- `noverlap = int(nperseg * overlap)`. -/
def welchNoverlap (N navgs : ℕ) (overlap : ℝ) : ℕ :=
  (⌊(welchNperseg N navgs : ℝ) * overlap⌋).toNat

/-- Number of averaged segments: starts `0, step, ...` while
`start + nperseg ≤ N`. -/
def welchNsegs (N navgs : ℕ) (overlap : ℝ) : ℕ :=
  (N - welchNperseg N navgs)
    / (welchNperseg N navgs - welchNoverlap N navgs overlap) + 1

/-- One-sided doubling factor of a density spectrum (no doubling at DC and,
for even segment length, at Nyquist). -/
def welchDbl (M k : ℕ) : ℝ := if k = 0 ∨ (M % 2 = 0 ∧ k = M / 2) then 1 else 2

/-- `scipy.signal.csd(x, y, fs=1/dt, window='hanning', nperseg, noverlap,
detrend='linear', scaling='density')` at one-sided bin `k`: mean over segments
of `conj(X_s[k])·Y_s[k]`, scaled by `dt/Σw²` and the doubling factor. -/
def welchCsd (x y : ℕ → ℝ) (N navgs : ℕ) (overlap dt : ℝ) (k : ℕ) : ℂ :=
  ((welchDbl (welchNperseg N navgs) k
      * (dt / ∑ j : Fin (welchNperseg N navgs), (hannWindow (welchNperseg N navgs) j) ^ 2)
      / (welchNsegs N navgs overlap) : ℝ) : ℂ)
    * ∑ s : Fin (welchNsegs N navgs overlap),
        (starRingEnd ℂ) (dftAt (welchNperseg N navgs)
            (windowedSeg x (welchNperseg N navgs)
              (welchNperseg N navgs - welchNoverlap N navgs overlap) s) k)
          * dftAt (welchNperseg N navgs)
            (windowedSeg y (welchNperseg N navgs)
              (welchNperseg N navgs - welchNoverlap N navgs overlap) s) k

/-- `averaged_psd` (scipy `welch`): the real part of the auto-spectrum. -/
def averaged_psd (x : ℕ → ℝ) (N navgs : ℕ) (overlap dt : ℝ) (k : ℕ) : ℝ :=
  (welchCsd x x N navgs overlap dt k).re

/-- `scipy.signal.coherence`: `|Pxy|² / (Pxx·Pyy)`. -/
def welchCoherence (x y : ℕ → ℝ) (N navgs : ℕ) (overlap dt : ℝ) (k : ℕ) : ℝ :=
  (Complex.abs (welchCsd x y N navgs overlap dt k)) ^ 2
    / (averaged_psd x N navgs overlap dt k * averaged_psd y N navgs overlap dt k)

/-- `averaged_tf(input_tsig, output_tsig, navgs, overlap, ...)` at bin `k`:
the pair `('tf' = csd/psd, 'coh' = coherence)`. -/
def averaged_tf (x y : ℕ → ℝ) (N navgs : ℕ) (overlap dt : ℝ) (k : ℕ) : ℂ × ℝ :=
  (welchCsd x y N navgs overlap dt k
      / ((averaged_psd x N navgs overlap dt k : ℝ) : ℂ),
    welchCoherence x y N navgs overlap dt k)

/-! ### Supporting lemmas and the claim theorems -/

/-- Root-of-unity geometric sum: `Σ_{k<N} exp(2πi·j·k/N)` is `N` when `N ∣ j`, else `0`. -/
lemma sum_exp_two_pi_int (N : ℕ) (hN : 0 < N) (j : ℤ) :
    ∑ k : Fin N, Complex.exp (((2 * Real.pi * j * k.val / N : ℝ)) * Complex.I)
      = if (N : ℤ) ∣ j then (N : ℂ) else 0 := by
  have hNR : (N : ℝ) ≠ 0 := Nat.cast_ne_zero.mpr hN.ne'
  set ω : ℂ := Complex.exp (((2 * Real.pi * j / N : ℝ)) * Complex.I) with hω
  have hterm : ∀ k : Fin N,
      Complex.exp (((2 * Real.pi * j * k.val / N : ℝ)) * Complex.I) = ω ^ (k.val) := by
    intro k
    rw [hω, ← Complex.exp_nat_mul]
    congr 1
    push_cast
    ring
  rw [Finset.sum_congr rfl (fun k _ => hterm k)]
  rw [Fin.sum_univ_eq_sum_range (fun i => ω ^ i) N]
  by_cases hdvd : (N : ℤ) ∣ j
  · obtain ⟨c, hc⟩ := hdvd
    have hω1 : ω = 1 := by
      rw [hω]
      have hr : (2 * Real.pi * j / N : ℝ) = (c : ℝ) * (2 * Real.pi) := by
        rw [hc]
        push_cast
        field_simp
        ring
      calc Complex.exp (((2 * Real.pi * j / N : ℝ)) * Complex.I)
          = Complex.exp ((((c : ℝ) * (2 * Real.pi) : ℝ)) * Complex.I) := by rw [hr]
        _ = Complex.exp ((c : ℂ) * (2 * (Real.pi : ℂ) * Complex.I)) := by push_cast; ring_nf
        _ = 1 := Complex.exp_int_mul_two_pi_mul_I c
    rw [hω1]
    simp only [one_pow, Finset.sum_const, Finset.card_range, nsmul_eq_mul, mul_one]
    rw [if_pos ⟨c, hc⟩]
  · have hωne : ω ≠ 1 := by
      intro h
      rw [hω, Complex.exp_eq_one_iff] at h
      obtain ⟨n, hn⟩ := h
      have him : (2 * Real.pi * j / N : ℝ) = (n : ℝ) * (2 * Real.pi) := by
        have h1 := congrArg Complex.im hn
        simpa [Complex.mul_I_im, Complex.mul_im, Complex.mul_re] using h1
      have him2 : (2 * Real.pi) * (j : ℝ) = (2 * Real.pi) * ((n : ℝ) * N) := by
        field_simp at him
        linarith [him]
      have hjR : (j : ℝ) = (n : ℝ) * N :=
        mul_left_cancel₀ (by positivity) him2
      have hjZ : j = n * N := by exact_mod_cast hjR
      exact hdvd ⟨n, by rw [hjZ]; ring⟩
    have hωN : ω ^ N = 1 := by
      rw [hω, ← Complex.exp_nat_mul]
      have hr : ((N : ℝ)) * (2 * Real.pi * j / N) = (j : ℝ) * (2 * Real.pi) := by
        field_simp
        ring
      calc Complex.exp ((N : ℂ) * (((2 * Real.pi * j / N : ℝ)) * Complex.I))
          = Complex.exp ((((N : ℝ) * (2 * Real.pi * j / N) : ℝ)) * Complex.I) := by push_cast; ring_nf
        _ = Complex.exp ((((j : ℝ) * (2 * Real.pi) : ℝ)) * Complex.I) := by rw [hr]
        _ = Complex.exp ((j : ℂ) * (2 * (Real.pi : ℂ) * Complex.I)) := by push_cast; ring_nf
        _ = 1 := Complex.exp_int_mul_two_pi_mul_I j
    rw [geom_sum_eq hωne, hωN]
    simp [hdvd]

/-- FFT inversion: `npifft ∘ npfft = id` (exact, over ℂ). -/
theorem npifft_npfft (N : ℕ) (hN : 0 < N) (x : Fin N → ℂ) :
    npifft N (npfft N x) = x := by
  funext n
  have hNR : (N : ℝ) ≠ 0 := Nat.cast_ne_zero.mpr hN.ne'
  have hNC : (N : ℂ) ≠ 0 := Nat.cast_ne_zero.mpr hN.ne'
  unfold npifft npfft
  simp only [Finset.sum_mul]
  rw [Finset.sum_comm]
  have hinner : ∀ m : Fin N,
      (∑ k : Fin N, x m * Complex.exp ((-(2 * Real.pi * k.val * m.val / N) : ℝ) * Complex.I)
        * Complex.exp (((2 * Real.pi * n.val * k.val / N) : ℝ) * Complex.I))
      = x m * (if ((N : ℤ) ∣ ((n : ℤ) - (m : ℤ))) then (N : ℂ) else 0) := by
    intro m
    simp only [mul_assoc]
    rw [← Finset.mul_sum]
    congr 1
    rw [← sum_exp_two_pi_int N hN ((n : ℤ) - (m : ℤ))]
    refine Finset.sum_congr rfl fun k _ => ?_
    rw [← Complex.exp_add]
    congr 1
    push_cast
    ring
  rw [Finset.sum_congr rfl fun m _ => hinner m]
  have hdvd_iff : ∀ m : Fin N, ((N : ℤ) ∣ ((n : ℤ) - (m : ℤ))) ↔ m = n := by
    intro m
    constructor
    · intro hdvd
      have habs : ((n : ℤ) - (m : ℤ)).natAbs < (N : ℤ).natAbs := by
        have hn' : (n : ℤ) < N := by exact_mod_cast n.isLt
        have hm' : (m : ℤ) < N := by exact_mod_cast m.isLt
        omega
      have h0 : (n : ℤ) - (m : ℤ) = 0 :=
        Int.eq_zero_of_dvd_of_natAbs_lt_natAbs hdvd habs
      have : (n : ℤ) = (m : ℤ) := by omega
      exact (Fin.ext (by exact_mod_cast this)).symm
    · rintro rfl
      simp
  have hsum : ∀ m : Fin N,
      x m * (if ((N : ℤ) ∣ ((n : ℤ) - (m : ℤ))) then (N : ℂ) else 0)
      = if m = n then x m * N else 0 := by
    intro m
    by_cases h : m = n
    · simp [h, (hdvd_iff m).mpr h]
    · have hnd : ¬ ((N : ℤ) ∣ ((n : ℤ) - (m : ℤ))) := fun hd => h ((hdvd_iff m).mp hd)
      simp [h, hnd]
  rw [Finset.sum_congr rfl fun m _ => hsum m]
  rw [Finset.sum_ite_eq' Finset.univ n (fun m => x m * N)]
  simp only [Finset.mem_univ, if_true]
  field_simp

lemma le_listMax {l : List ℝ} {a : ℝ} (ha : a ∈ l) : a ≤ listMax l := by
  induction l with
  | nil => cases ha
  | cons b rest ih =>
    cases rest with
    | nil =>
      rcases List.mem_singleton.mp ha with rfl
      simp [listMax]
    | cons c rest' =>
      rcases List.mem_cons.mp ha with rfl | hmem
      · simp [listMax]
      · exact le_trans (ih hmem) (by simp [listMax])

lemma listMax_le {l : List ℝ} {b : ℝ} (hne : l ≠ []) (hb : ∀ a ∈ l, a ≤ b) :
    listMax l ≤ b := by
  induction l with
  | nil => exact absurd rfl hne
  | cons a rest ih =>
    cases rest with
    | nil => simpa [listMax] using hb a (by simp)
    | cons c rest' =>
      rw [listMax]
      exact max_le (hb a (by simp)) (ih (by simp) (fun y hy => hb y (List.mem_cons_of_mem _ hy)))

lemma mem_insertPair {p q : ℝ × ℂ} {l : List (ℝ × ℂ)} :
    q ∈ insertPair p l ↔ q = p ∨ q ∈ l := by
  induction l with
  | nil => simp [insertPair]
  | cons r rest ih =>
    rw [insertPair]
    by_cases h : p.1 ≤ r.1
    · simp [h]
    · simp only [if_neg h, List.mem_cons, ih]
      tauto

lemma mem_sortByFreq {q : ℝ × ℂ} {l : List (ℝ × ℂ)} :
    q ∈ sortByFreq l ↔ q ∈ l := by
  induction l with
  | nil => simp [sortByFreq]
  | cons p rest ih => rw [sortByFreq, mem_insertPair, ih, List.mem_cons]

lemma sortByFreq_ne_nil {l : List (ℝ × ℂ)} (h : l ≠ []) : sortByFreq l ≠ [] := by
  cases l with
  | nil => exact absurd rfl h
  | cons p rest =>
    rw [sortByFreq]
    intro hcon
    have : p ∈ insertPair p (sortByFreq rest) := mem_insertPair.mpr (Or.inl rfl)
    rw [hcon] at this
    cases this

lemma pairwise_insertPair {p : ℝ × ℂ} {l : List (ℝ × ℂ)}
    (h : l.Pairwise (fun a b => a.1 ≤ b.1)) :
    (insertPair p l).Pairwise (fun a b => a.1 ≤ b.1) := by
  induction l with
  | nil => simp [insertPair]
  | cons q rest ih =>
    rw [insertPair]
    rcases List.pairwise_cons.mp h with ⟨hq, hrest⟩
    by_cases hle : p.1 ≤ q.1
    · rw [if_pos hle]
      refine List.pairwise_cons.mpr ⟨?_, h⟩
      intro b hb
      rcases List.mem_cons.mp hb with rfl | hbm
      · exact hle
      · exact le_trans hle (hq b hbm)
    · rw [if_neg hle]
      refine List.pairwise_cons.mpr ⟨?_, ih hrest⟩
      intro b hb
      rcases mem_insertPair.mp hb with rfl | hbm
      · exact le_of_not_le hle
      · exact hq b hbm

lemma pairwise_sortByFreq (l : List (ℝ × ℂ)) :
    (sortByFreq l).Pairwise (fun a b => a.1 ≤ b.1) := by
  induction l with
  | nil => simp [sortByFreq]
  | cons p rest ih => exact pairwise_insertPair ih

lemma unwrapFrom_zeros (corr : ℝ) (l : List ℝ) (hl : ∀ x ∈ l, x = (0 : ℝ)) :
    unwrapFrom 0 corr l = l.map (fun x => x + corr) := by
  induction l generalizing corr with
  | nil => simp [unwrapFrom]
  | cons x rest ih =>
    have hx : x = 0 := hl x (by simp)
    subst hx
    rw [unwrapFrom]
    simp only [sub_zero, abs_zero]
    rw [if_pos Real.pi_pos]
    simp only [add_zero]
    rw [ih corr (fun y hy => hl y (List.mem_cons_of_mem _ hy))]
    simp

lemma npunwrap_zeros (l : List ℝ) (hl : ∀ x ∈ l, x = (0 : ℝ)) :
    npunwrap l = l := by
  cases l with
  | nil => rfl
  | cons x rest =>
    have hx : x = 0 := hl x (by simp)
    subst hx
    rw [npunwrap, unwrapFrom_zeros 0 rest (fun y hy => hl y (List.mem_cons_of_mem _ hy))]
    simp

lemma interp1d_const {nodes : List (ℝ × ℝ)} {c t : ℝ}
    (hsort : nodes.Pairwise (fun a b => a.1 ≤ b.1))
    (hconst : ∀ p ∈ nodes, p.2 = c)
    (hlo : ∃ p ∈ nodes, p.1 ≤ t) (hhi : ∃ p ∈ nodes, t ≤ p.1) :
    interp1d nodes t = .ok c := by
  induction nodes with
  | nil => obtain ⟨p, hp, _⟩ := hlo; cases hp
  | cons p0 rest ih =>
    obtain ⟨x0, y0⟩ := p0
    cases rest with
    | nil =>
      obtain ⟨p, hp, hple⟩ := hlo
      obtain ⟨q, hq, hqle⟩ := hhi
      rcases List.mem_singleton.mp hp with rfl
      rcases List.mem_singleton.mp hq with rfl
      have ht : t = x0 := le_antisymm hqle hple
      rw [interp1d, if_pos ht]
      have := hconst (x0, y0) (by simp)
      simp at this
      rw [this]
    | cons p1 rest' =>
      obtain ⟨x1, y1⟩ := p1
      have hx0_le : ∀ q ∈ (x1, y1) :: rest', x0 ≤ q.1 :=
        fun q hq => (List.pairwise_cons.mp hsort).1 q hq
      have hx0t : x0 ≤ t := by
        obtain ⟨p, hp, hple⟩ := hlo
        rcases List.mem_cons.mp hp with rfl | hpm
        · exact hple
        · exact le_trans (hx0_le p hpm) hple
      rw [interp1d, if_neg (not_lt.mpr hx0t)]
      by_cases ht1 : t ≤ x1
      · rw [if_pos ht1]
        have h0 : y0 = c := by simpa using hconst (x0, y0) (by simp)
        have h1 : y1 = c := by simpa using hconst (x1, y1) (by simp)
        rw [h0, h1]
        simp
      · rw [if_neg ht1]
        have hx1t : x1 ≤ t := le_of_not_le ht1
        refine ih ((List.pairwise_cons.mp hsort).2) ?_ ?_ ?_
        · exact fun q hq => hconst q (List.mem_cons_of_mem _ hq)
        · exact ⟨(x1, y1), by simp, hx1t⟩
        · obtain ⟨q, hq, hqle⟩ := hhi
          rcases List.mem_cons.mp hq with rfl | hqm
          · exact absurd (le_trans hqle (hx0_le (x1, y1) (by simp))) ht1
          · exact ⟨q, hqm, hqle⟩

/-- Every FFT bin frequency is bounded by the Nyquist frequency `1/(2·dt)`. -/
lemma abs_npfftfreq_le {N : ℕ} (hN : 0 < N) {dt : ℝ} (hdt : 0 < dt) (k : Fin N) :
    |npfftfreq N dt k| ≤ 1 / (2 * dt) := by
  unfold npfftfreq
  rw [abs_div, abs_of_pos (show (0:ℝ) < (N:ℝ) * dt by positivity)]
  rw [div_le_div_iff₀ (by positivity) (by positivity)]
  have hbound : |(if (k : ℕ) ≤ (N - 1) / 2 then (k : ℝ) else (k : ℝ) - N)| * 2 ≤ N := by
    by_cases hk : (k : ℕ) ≤ (N - 1) / 2
    · rw [if_pos hk]
      rw [abs_eq_self.mpr (show (0 : ℝ) ≤ ((k : ℕ) : ℝ) by positivity)]
      have h2 : 2 * (k : ℕ) ≤ N := by omega
      have h2' : 2 * ((k : ℕ) : ℝ) ≤ (N : ℝ) := by exact_mod_cast h2
      linarith
    · rw [if_neg hk]
      have hkN : (k : ℕ) < N := k.isLt
      have h2 : N ≤ 2 * (k : ℕ) := by omega
      have h2' : (N : ℝ) ≤ 2 * ((k : ℕ) : ℝ) := by exact_mod_cast h2
      have hkN' : ((k : ℕ) : ℝ) ≤ (N : ℝ) := by exact_mod_cast hkN.le
      rw [abs_eq_neg_self.mpr (show ((k : ℕ) : ℝ) - (N : ℝ) ≤ 0 by linarith)]
      linarith
  nlinarith [hbound, hdt]

/-- Interpolating a unity filter returns exactly `1` at any covered frequency. -/
lemma interpTfAt_one {filt : List (ℝ × ℂ)} (hunit : ∀ p ∈ filt, p.2 = 1) {t : ℝ}
    (hlo : ∃ p ∈ filt, p.1 ≤ t) (hhi : ∃ p ∈ filt, t ≤ p.1) :
    interpTfAt filt t = .ok 1 := by
  have hsunit : ∀ p ∈ sortByFreq filt, p.2 = (1 : ℂ) :=
    fun p hp => hunit p (mem_sortByFreq.mp hp)
  have hsort := pairwise_sortByFreq filt
  -- phase node list: all raw angles are 0, and unwrap is the identity on zeros
  have hargs : ∀ y ∈ (sortByFreq filt).map (fun p => (p.2).arg), y = (0 : ℝ) := by
    intro y hy
    obtain ⟨p, hp, rfl⟩ := List.mem_map.mp hy
    rw [hsunit p hp, Complex.arg_one]
  have hunwrap : npunwrap ((sortByFreq filt).map (fun p => (p.2).arg))
      = (sortByFreq filt).map (fun p => (p.2).arg) := npunwrap_zeros _ hargs
  have hzip : ((sortByFreq filt).map Prod.fst).zip
        ((sortByFreq filt).map (fun p => (p.2).arg))
      = (sortByFreq filt).map (fun p => (p.1, (p.2).arg)) := by
    rw [List.zip_map']
  -- magnitude interpolation yields 1
  have hmag : interp1d ((sortByFreq filt).map (fun p => (p.1, Complex.abs p.2))) t
      = .ok 1 := by
    apply interp1d_const
    · rw [List.pairwise_map]
      exact hsort
    · intro q hq
      obtain ⟨p, hp, rfl⟩ := List.mem_map.mp hq
      simp [hsunit p hp]
    · obtain ⟨p, hp, hple⟩ := hlo
      exact ⟨(p.1, Complex.abs p.2), List.mem_map.mpr ⟨p, mem_sortByFreq.mpr hp, rfl⟩, hple⟩
    · obtain ⟨p, hp, hple⟩ := hhi
      exact ⟨(p.1, Complex.abs p.2), List.mem_map.mpr ⟨p, mem_sortByFreq.mpr hp, rfl⟩, hple⟩
  -- phase interpolation yields 0
  have hph : interp1d (((sortByFreq filt).map Prod.fst).zip
      (npunwrap ((sortByFreq filt).map (fun p => (p.2).arg)))) t = .ok 0 := by
    rw [hunwrap, hzip]
    apply interp1d_const
    · rw [List.pairwise_map]
      exact hsort
    · intro q hq
      obtain ⟨p, hp, rfl⟩ := List.mem_map.mp hq
      simp [hsunit p hp, Complex.arg_one]
    · obtain ⟨p, hp, hple⟩ := hlo
      exact ⟨(p.1, (p.2).arg), List.mem_map.mpr ⟨p, mem_sortByFreq.mpr hp, rfl⟩, hple⟩
    · obtain ⟨p, hp, hple⟩ := hhi
      exact ⟨(p.1, (p.2).arg), List.mem_map.mpr ⟨p, mem_sortByFreq.mpr hp, rfl⟩, hple⟩
  unfold interpTfAt
  rw [hmag, hph]
  norm_num

/-- C1: applying a unity (all-pass) filter whose frequency domain covers the
signal's Nyquist range returns the original signal exactly: the forward scale
`2/N` and the inverse compensation `N/2` cancel, and the discarded imaginary
part is exactly zero in exact arithmetic. -/
theorem C1_allpass_roundtrip {N : ℕ} (hN : 0 < N) (x : Fin N → ℝ) {dt : ℝ}
    (hdt : 0 < dt) (filt : List (ℝ × ℂ))
    (hunit : ∀ p ∈ filt, p.2 = 1)
    (hlo : ∃ p ∈ filt, p.1 ≤ -(1 / (2 * dt)))
    (hhi : ∃ p ∈ filt, 1 / (2 * dt) ≤ p.1) :
    apply_filter x dt filt = .ok x := by
  have hNC : (N : ℂ) ≠ 0 := Nat.cast_ne_zero.mpr hN.ne'
  -- the coverage check passes
  have hmaxf : listMax (List.ofFn (npfftfreq N dt)) ≤ 1 / (2 * dt) := by
    apply listMax_le
    · intro hcon
      have : (List.ofFn (npfftfreq N dt)).length = N := List.length_ofFn _
      rw [hcon] at this
      simp at this
      omega
    · intro a ha
      obtain ⟨k, rfl⟩ := Set.mem_range.mp ((List.mem_ofFn _ _).mp ha)
      exact le_trans (le_abs_self _) (abs_npfftfreq_le hN hdt k)
  have hmaxidx : 1 / (2 * dt) ≤ listMax (filt.map Prod.fst) := by
    obtain ⟨p, hp, hple⟩ := hhi
    exact le_trans hple (le_listMax (List.mem_map.mpr ⟨p, hp, rfl⟩))
  have hcov : ¬ (listMax (List.ofFn (npfftfreq N dt)) > listMax (filt.map Prod.fst)) :=
    not_lt.mpr (le_trans hmaxf hmaxidx)
  -- each bin frequency is covered by the filter's frequency domain
  have hbin : ∀ k : Fin N,
      (∃ p ∈ filt, p.1 ≤ npfftfreq N dt k) ∧ (∃ p ∈ filt, npfftfreq N dt k ≤ p.1) := by
    intro k
    have habs := abs_npfftfreq_le hN hdt k
    constructor
    · obtain ⟨p, hp, hple⟩ := hlo
      exact ⟨p, hp, le_trans hple (neg_le_of_abs_le habs)⟩
    · obtain ⟨p, hp, hple⟩ := hhi
      exact ⟨p, hp, le_trans (le_of_abs_le habs) hple⟩
  have hat : ∀ k : Fin N, interpTfAt filt (npfftfreq N dt k) = .ok 1 :=
    fun k => interpTfAt_one hunit (hbin k).1 (hbin k).2
  have hall : interpTfAll (npfftfreq N dt) filt = .ok (fun _ => (1 : ℂ)) := by
    unfold interpTfAll
    have hcond : ∀ k, (interpTfAt filt (npfftfreq N dt k)).isOk := by
      intro k
      rw [hat k]
      rfl
    rw [dif_pos hcond]
    congr 1
    funext k
    rw [hat k]
    rfl
  unfold apply_filter
  rw [if_neg hcov, hall]
  dsimp only
  have hscale : (fun k : Fin N =>
      npfft N (fun m => (x m : ℂ)) k * (2 / (N : ℂ)) * (1 : ℂ) * ((N : ℂ) / 2))
      = npfft N (fun m => (x m : ℂ)) := by
    funext k
    field_simp
  rw [hscale, npifft_npfft N hN]
  congr 1

/-- Witness for C1 at a concrete signal and unity filter. -/
theorem C1_allpass_roundtrip_witness :
    apply_filter ![(5 : ℝ)] 1 [((-1 : ℝ), (1 : ℂ)), ((1 : ℝ), (1 : ℂ))]
      = .ok ![(5 : ℝ)] := by
  apply C1_allpass_roundtrip (by norm_num) ![(5 : ℝ)] (by norm_num)
  · intro p hp
    rcases List.mem_cons.mp hp with rfl | hp'
    · rfl
    · rcases List.mem_singleton.mp hp' with rfl
      rfl
  · exact ⟨((-1 : ℝ), (1 : ℂ)), by simp, by norm_num⟩
  · exact ⟨((1 : ℝ), (1 : ℂ)), by simp, by norm_num⟩

lemma interpTfAll_error {N : ℕ} {fvec : Fin N → ℝ} {filt : List (ℝ × ℂ)}
    {e : FiltError} (h : interpTfAll fvec filt = .error e) : e = .outOfBounds := by
  unfold interpTfAll at h
  split at h
  · cases h
  · cases h
    rfl

/-- C2 (amended): `apply_filter` fails with the explicit coverage error iff the
maximum *signed* filter index frequency is below the maximum *signed* FFT bin
frequency (the source compares `np.max` values, not magnitudes), and such a
failure short-circuits all interpolation and multiplication. -/
theorem C2_coverage_iff {N : ℕ} (_hN : 0 < N) (x : Fin N → ℝ) (dt : ℝ)
    (filt : List (ℝ × ℂ)) (_hfilt : filt ≠ []) :
    apply_filter x dt filt = .error .coverage ↔
      listMax (filt.map Prod.fst) < listMax (List.ofFn (npfftfreq N dt)) := by
  unfold apply_filter
  by_cases hc : listMax (List.ofFn (npfftfreq N dt)) > listMax (filt.map Prod.fst)
  · rw [if_pos hc]
    simpa using hc
  · rw [if_neg hc]
    constructor
    · intro h
      cases hall : interpTfAll (npfftfreq N dt) filt with
      | error e =>
        rw [hall] at h
        have he : e = .outOfBounds := interpTfAll_error hall
        rw [he] at h
        cases h
      | ok interpFilt =>
        rw [hall] at h
        cases h
    · intro hlt
      exact absurd hlt hc

/-- Witness for (amended) C2: a filter whose maximum index frequency lies below
the signal's maximum bin frequency triggers the coverage error. -/
theorem C2_coverage_iff_witness :
    apply_filter ![(3 : ℝ)] 1 [((-1 : ℝ), (1 : ℂ))] = .error .coverage := by
  rw [C2_coverage_iff (by norm_num) ![(3 : ℝ)] 1 [((-1 : ℝ), (1 : ℂ))] (by simp)]
  have hofn : List.ofFn (npfftfreq 1 1) = [0] := by
    simp [List.ofFn_succ, npfftfreq]
  rw [hofn]
  norm_num [listMax]

/-- C2 counterexample: with signal length 2, `dt = 1` and the one-point filter
`{0.3 ↦ 1}`, the filter's largest covered frequency magnitude (0.3) is smaller
than the signal's largest bin magnitude (1/2), yet `apply_filter` does *not*
raise the coverage error (it fails later, inside interpolation): the claim's
magnitude-based iff is false on the code. -/
theorem C2_counterexample :
    ¬ ((apply_filter ![(1 : ℝ), 0] 1 [((3 / 10 : ℝ), (1 : ℂ))] = .error .coverage) ↔
        listMax ([((3 / 10 : ℝ), (1 : ℂ))].map (fun p => |p.1|)) <
          listMax (List.ofFn (fun k => |npfftfreq 2 1 k|))) := by
  have hf0 : npfftfreq 2 1 (0 : Fin 2) = 0 := by
    norm_num [npfftfreq]
  have hf1 : npfftfreq 2 1 (1 : Fin 2) = -(1 / 2) := by
    norm_num [npfftfreq]
  have hsort : sortByFreq [((3 / 10 : ℝ), (1 : ℂ))] = [((3 / 10 : ℝ), (1 : ℂ))] := rfl
  have hat : interpTfAt [((3 / 10 : ℝ), (1 : ℂ))] (npfftfreq 2 1 (0 : Fin 2))
      = .error .outOfBounds := by
    rw [hf0]
    unfold interpTfAt
    rw [hsort]
    simp only [List.map_cons, List.map_nil]
    rw [interp1d, if_neg (by norm_num : ¬ (0 : ℝ) = 3 / 10)]
  have hall : interpTfAll (npfftfreq 2 1) [((3 / 10 : ℝ), (1 : ℂ))]
      = .error .outOfBounds := by
    unfold interpTfAll
    rw [dif_neg]
    intro hax
    have h0 := hax 0
    rw [hat] at h0
    simp [Except.isOk, Except.toBool] at h0
  have hres : apply_filter ![(1 : ℝ), 0] 1 [((3 / 10 : ℝ), (1 : ℂ))]
      = .error .outOfBounds := by
    unfold apply_filter
    rw [if_neg, hall]
    have hofn : List.ofFn (npfftfreq 2 1) = [0, -(1 / 2)] := by
      rw [List.ofFn_succ, List.ofFn_succ, List.ofFn_zero]
      rw [hf0]
      norm_num [npfftfreq]
    rw [hofn]
    norm_num [listMax]
  intro hiff
  have hrhs : listMax ([((3 / 10 : ℝ), (1 : ℂ))].map (fun p => |p.1|)) <
      listMax (List.ofFn (fun k => |npfftfreq 2 1 k|)) := by
    have hofn : List.ofFn (fun k => |npfftfreq 2 1 k|) = [0, 1 / 2] := by
      rw [List.ofFn_succ, List.ofFn_succ, List.ofFn_zero]
      norm_num [npfftfreq]
    have habs : |(3 / 10 : ℝ)| = 3 / 10 := abs_eq_self.mpr (by norm_num)
    rw [hofn]
    simp only [List.map_cons, List.map_nil]
    norm_num [listMax, habs]
  have := hiff.mpr hrhs
  rw [hres] at this
  cases this

lemma foldl_acc_overwrite (w t : ℝ) (cs : List ℝ) (a : Option ℝ) :
    cs.foldl (fun acc c => if t ≥ c - w / 2 ∧ t < c + w / 2 then some c else acc) a
      = match lastCovering w t cs with
        | some c => some c
        | none => a := by
  induction cs generalizing a with
  | nil => simp [lastCovering]
  | cons c rest ih =>
    rw [List.foldl_cons, ih]
    have hrhs : lastCovering w t (c :: rest)
        = match lastCovering w t rest with
          | some c' => some c'
          | none => if t ≥ c - w / 2 ∧ t < c + w / 2 then some c else none := by
      unfold lastCovering
      rw [List.foldl_cons]
      exact ih _
    rw [hrhs]
    cases hrest : lastCovering w t rest with
    | some c' => rfl
    | none =>
      by_cases hc : t ≥ c - w / 2 ∧ t < c + w / 2
      · rw [if_pos hc, if_pos hc]
      · rw [if_neg hc, if_neg hc]

/-- Pointwise value of an overwriting (square/triangle) footprint fold: the
last covering center wins, else the initial background. -/
lemma foldl_overwrite_eq (xv : ℕ → ℝ) (w : ℝ) (val : ℝ → ℕ → ℝ) (cs : List ℝ)
    (prev : ℕ → ℝ) (i : ℕ) :
    (cs.foldl (fun p c => fun j =>
        if xv j ≥ c - w / 2 ∧ xv j < c + w / 2 then val c j else p j) prev) i
      = match lastCovering w (xv i) cs with
        | some c => val c i
        | none => prev i := by
  induction cs generalizing prev with
  | nil => simp [lastCovering]
  | cons c rest ih =>
    rw [List.foldl_cons, ih]
    have hlast : lastCovering w (xv i) (c :: rest)
        = match lastCovering w (xv i) rest with
          | some c' => some c'
          | none => if xv i ≥ c - w / 2 ∧ xv i < c + w / 2 then some c else none := by
      unfold lastCovering
      rw [List.foldl_cons]
      exact foldl_acc_overwrite w (xv i) rest _
    rw [hlast]
    cases hrest : lastCovering w (xv i) rest with
    | some c' => rfl
    | none =>
      by_cases hc : xv i ≥ c - w / 2 ∧ xv i < c + w / 2
      · rw [if_pos hc, if_pos hc]
      · rw [if_neg hc, if_neg hc]

/-- Pointwise value of the additive gaussian fold: background plus the sum of
all bumps. -/
lemma foldl_gaussian_eq (xv : ℕ → ℝ) (σden : ℝ) (cs : List ℝ) (prev : ℕ → ℝ) (i : ℕ) :
    (cs.foldl (fun p c => fun j => p j + Real.exp (-(xv j - c) ^ 2 / σden)) prev) i
      = prev i + (cs.map (fun c => Real.exp (-(xv i - c) ^ 2 / σden))).sum := by
  induction cs generalizing prev with
  | nil => simp
  | cons c rest ih =>
    rw [List.foldl_cons, ih]
    simp [List.map_cons, List.sum_cons]
    ring

/-- C6: a single square site centered at 0 with `dx = 1`, `xmax = 100` gives
density exactly 1 on grid points in `[-w/2, w/2)` and exactly 0 elsewhere. -/
theorem C6_single_site_square (w : ℝ) :
    ∃ P : Plant1D, get_1d_plant [0] 0 (some w) "square" 1 100 = .ok P ∧
      ∀ i : ℕ, P.plant i = if -(w / 2) ≤ P.xvec i ∧ P.xvec i < w / 2 then 1 else 0 := by
  unfold get_1d_plant
  rw [if_pos (show (lowerStr "square" = "square") by decide)]
  refine ⟨_, rfl, ?_⟩
  intro i
  simp only [Option.getD_some, List.map_cons, List.map_nil, List.foldl_cons, List.foldl_nil]
  have hlo : (0 : ℝ) - 0 - w / 2 = -(w / 2) := by ring
  have hhi : (0 : ℝ) - 0 + w / 2 = w / 2 := by ring
  rw [hlo, hhi]

/-- C7: square and triangle footprints overwrite overlapping spans (the last
center in placement order wins), while gaussian footprints accumulate
additively over all sites. -/
theorem C7_overlap_semantics (centers : List ℝ) (ref w dx xmax : ℝ) (i : ℕ) :
    (∃ P : Plant1D, get_1d_plant centers ref (some w) "square" dx xmax = .ok P ∧
        P.plant i = (match lastCovering w (plantGrid dx xmax i)
            (centers.map (fun c => c - ref)) with
          | some _ => (1 : ℝ)
          | none => 0)) ∧
    (∃ P : Plant1D, get_1d_plant centers ref (some w) "triangle" dx xmax = .ok P ∧
        P.plant i = (match lastCovering w (plantGrid dx xmax i)
            (centers.map (fun c => c - ref)) with
          | some c => plantGrid dx xmax i - c + w / 2
          | none => 0)) ∧
    (∃ P : Plant1D, get_1d_plant centers ref (some w) "gaussian" dx xmax = .ok P ∧
        P.plant i = ((centers.map (fun c => c - ref)).map
          (fun c => Real.exp (-(plantGrid dx xmax i - c) ^ 2
            / (2 * (w / 2.355) ^ 2)))).sum) := by
  refine ⟨?_, ?_, ?_⟩
  · unfold get_1d_plant
    rw [if_pos (show (lowerStr "square" = "square") by decide)]
    refine ⟨_, rfl, ?_⟩
    simp only [Option.getD_some]
    have h := foldl_overwrite_eq (plantGrid dx xmax) w (fun _ _ => (1 : ℝ))
      (centers.map (fun c => c - ref)) (fun _ => 0) i
    cases hlc : lastCovering w (plantGrid dx xmax i) (centers.map (fun c => c - ref)) with
    | some c =>
      rw [hlc] at h
      exact h
    | none =>
      rw [hlc] at h
      exact h
  · unfold get_1d_plant
    rw [if_neg (show ¬ (lowerStr "triangle" = "square") by decide),
      if_pos (show (lowerStr "triangle" = "triangle") by decide)]
    refine ⟨_, rfl, ?_⟩
    simp only [Option.getD_some]
    have h := foldl_overwrite_eq (plantGrid dx xmax) w
      (fun c j => plantGrid dx xmax j - c + w / 2)
      (centers.map (fun c => c - ref)) (fun _ => 0) i
    cases hlc : lastCovering w (plantGrid dx xmax i) (centers.map (fun c => c - ref)) with
    | some c =>
      rw [hlc] at h
      exact h
    | none =>
      rw [hlc] at h
      exact h
  · unfold get_1d_plant
    rw [if_neg (show ¬ (lowerStr "gaussian" = "square") by decide),
      if_neg (show ¬ (lowerStr "gaussian" = "triangle") by decide),
      if_pos (show (lowerStr "gaussian" = "gaussian") by decide)]
    refine ⟨_, rfl, ?_⟩
    simp only [Option.getD_some]
    have h := foldl_gaussian_eq (plantGrid dx xmax) (2 * (w / 2.355) ^ 2)
      (centers.map (fun c => c - ref)) (fun _ => 0) i
    rw [h]
    simp

/-- C8 (amended): the position grid starts at `floor(-xmax/2)` (an artifact of
Python floor division `-xmax//2`, equal to `-xmax/2` only when `xmax/2` is an
integer), advances in uniform steps `dx`, and contains exactly the grid values
strictly below `floor(xmax/2)`. -/
theorem C8_grid_structure (centers : List ℝ) (dx xmax : ℝ) (hdx : 0 < dx) (i : ℕ) :
    ∃ P : Plant1D, get_1d_plant centers 0 none "square" dx xmax = .ok P ∧
      P.xvec 0 = plantGridStart xmax ∧
      P.xvec i = plantGridStart xmax + i * dx ∧
      (i < P.len ↔ P.xvec i < plantGridStop xmax) := by
  unfold get_1d_plant
  rw [if_pos (show (lowerStr "square" = "square") by decide)]
  refine ⟨_, rfl, by simp [plantGrid], rfl, ?_⟩
  show i < plantGridLen dx xmax ↔ plantGrid dx xmax i < plantGridStop xmax
  unfold plantGridLen plantGrid
  rw [Int.lt_toNat]
  constructor
  · intro h1
    have h2 : (i : ℝ) < (plantGridStop xmax - plantGridStart xmax) / dx := by
      exact_mod_cast Int.lt_ceil.mp h1
    have h3 : (i : ℝ) * dx < plantGridStop xmax - plantGridStart xmax :=
      (lt_div_iff₀ hdx).mp h2
    linarith
  · intro hi
    apply Int.lt_ceil.mpr
    rw [lt_div_iff₀ hdx]
    push_cast
    linarith

/-- C8 counterexample: with `xmax = 101` and `dx = 1`, the grid starts at
`-51`, not at `-xmax/2 = -50.5`: the claimed start `-xmax/2` is wrong whenever
`xmax/2` is not an integer. -/
theorem C8_counterexample :
    (get_1d_plant [] 0 none "square" 1 101).map (fun P => P.xvec 0) = .ok (-51) ∧
      ((-51 : ℝ) ≠ -(101 / 2)) := by
  constructor
  · unfold get_1d_plant
    rw [if_pos (show (lowerStr "square" = "square") by decide)]
    show Except.ok (plantGrid 1 101 0) = Except.ok (-51)
    congr 1
    unfold plantGrid plantGridStart
    have : ⌊(-101 : ℝ) / 2⌋ = -51 := by
      apply Int.floor_eq_iff.mpr
      constructor <;> norm_num
    rw [this]
    norm_num
  · norm_num

/-- C5: for plant area `s > 0`, `get_marcosfilter` is indexed by the supplied
grid (default: 100 evenly spaced points from 0 to 1/2, i.e. `i/198`), and its
value at each grid frequency `f` is `1/(1 + i·f/fc)` with `fc = 0.02/√s`. -/
theorem C5_marcos_formula (s : ℝ) (_hs : 0 < s) (freq : Option (List ℝ)) :
    (get_marcosfilter s freq).map Prod.fst = freq.getD (nplinspace 0 (1 / 2) 100) ∧
      (∀ p ∈ get_marcosfilter s freq,
        p.2 = 1 / (1 + Complex.I * (p.1 : ℂ) / ((0.02 / Real.sqrt s : ℝ) : ℂ))) ∧
      nplinspace 0 (1 / 2) 100 = List.ofFn (fun i : Fin 100 => (i : ℝ) * (1 / 198)) := by
  refine ⟨?_, ?_, ?_⟩
  · unfold get_marcosfilter
    rw [List.map_map]
    have hcomp : (Prod.fst ∘ fun f : ℝ =>
        (f, (1 : ℂ) / (Complex.I * (f : ℂ) / ((0.02 / Real.sqrt s : ℝ) : ℂ) + 1)))
        = id := rfl
    rw [hcomp, List.map_id]
  · intro p hp
    unfold get_marcosfilter at hp
    obtain ⟨f, _hf, rfl⟩ := List.mem_map.mp hp
    show (1 : ℂ) / (Complex.I * (f : ℂ) / ((0.02 / Real.sqrt s : ℝ) : ℂ) + 1) = _
    congr 1
    ring
  · unfold nplinspace
    congr 1
    funext i
    norm_num

/-- Witness for C5 at `s = 4` with the default grid. -/
theorem C5_marcos_formula_witness :
    (get_marcosfilter 4 none).map Prod.fst = nplinspace 0 (1 / 2) 100 := by
  have h := (C5_marcos_formula 4 (by norm_num) none).1
  simpa using h

/-- C9 (amended): for a nonempty frequency index of length N, `cleanfreq`
keeps the length, nulls exactly position `N/2`, keeps every other index entry
identical and leaves the data values untouched. -/
theorem C9_cleanfreq_surgery (sig : Spectrum) (h : 0 < sig.index.length) :
    ∃ out : Spectrum × Option Unit, cleanfreq sig = .ok out ∧
      out.1.index.length = sig.index.length ∧
      out.1.index[sig.index.length / 2]? = some none ∧
      (∀ i : ℕ, i ≠ sig.index.length / 2 → out.1.index[i]? = sig.index[i]?) ∧
      out.1.values = sig.values := by
  have hlt : sig.index.length / 2 < sig.index.length := Nat.div_lt_self h (by norm_num)
  unfold cleanfreq
  rw [if_pos hlt]
  refine ⟨_, rfl, ?_, ?_, ?_, rfl⟩
  · exact List.length_set ..
  · rw [List.getElem?_set_self]
    · simp [hlt]
  · intro i hi
    exact List.getElem?_set_ne (fun hcon => hi hcon.symm)

/-- Witness for C9 on a concrete three-point spectrum. -/
theorem C9_cleanfreq_surgery_witness :
    (cleanfreq ⟨[some 1, some 2, some 3], [1, 2, 3]⟩).map
      (fun out => out.1.index.length) = .ok 3 := by
  obtain ⟨out, hout, hlen, _, _, _⟩ :=
    C9_cleanfreq_surgery ⟨[some 1, some 2, some 3], [1, 2, 3]⟩ (by norm_num)
  rw [hout]
  simpa [Except.map] using hlen

/-- C9 counterexample: on an empty frequency index the code raises
`IndexError` instead of performing any length-preserving replacement. -/
theorem C9_counterexample :
    cleanfreq ⟨[], []⟩ = .error "IndexError: list assignment index out of range" := rfl

/-- C10 (amended): for a nonempty index, `cleanfreq` returns Python's `None`
(no value) while the post-state of its argument carries the nulled index: the
caller must read the mutated argument. -/
theorem C10_cleanfreq_mutation (sig : Spectrum) (h : 0 < sig.index.length) :
    cleanfreq sig
      = .ok (⟨sig.index.set (sig.index.length / 2) none, sig.values⟩, none) := by
  unfold cleanfreq
  rw [if_pos (Nat.div_lt_self h (by norm_num))]

/-- Witness for C10 on a concrete two-point spectrum. -/
theorem C10_cleanfreq_mutation_witness :
    cleanfreq ⟨[some 1, some 2], [1, 0]⟩
      = .ok (⟨[some 1, none], [1, 0]⟩, none) := by
  have h := C10_cleanfreq_mutation ⟨[some 1, some 2], [1, 0]⟩ (by norm_num)
  simpa using h

/-- C10 counterexample: on the empty spectrum `cleanfreq` raises rather than
returning `None` with an (unchanged) mutated argument. -/
theorem C10_counterexample :
    cleanfreq ⟨[], []⟩ ≠ .ok (⟨([] : List (Option ℝ)).set 0 none, []⟩, none) := by
  intro hcon
  unfold cleanfreq at hcon
  rw [if_neg (by norm_num :
    ¬ (([] : List (Option ℝ)).length / 2 < ([] : List (Option ℝ)).length))] at hcon
  cases hcon

/-- C4: a plant whose density mass sits in a single grid cell yields a CAM
filter of magnitude 1 at every frequency (a pure delay), and its
zero-frequency value is exactly 1. -/
theorem C4_point_source_cam {N : ℕ} (hN : 2 ≤ N) (plant x_plant : Fin N → ℝ)
    (cloud_speed : ℝ) (_hcs : cloud_speed ≠ 0) (m : Fin N)
    (hm : plant m ≠ 0) (hz : ∀ j, j ≠ m → plant j = 0) :
    (∀ k, Complex.abs ((plant1d_to_camfilter hN plant x_plant cloud_speed k).2) = 1) ∧
      (plant1d_to_camfilter hN plant x_plant cloud_speed ⟨0, by omega⟩).2 = 1 := by
  have hsum : (∑ j : Fin N, plant j) = plant m :=
    Finset.sum_eq_single m (fun j _ hj => hz j hj)
      (fun hnm => absurd (Finset.mem_univ m) hnm)
  have hnorm : ∀ j : Fin N, camNormPlant plant j = if j = m then 1 else 0 := by
    intro j
    unfold camNormPlant
    rw [hsum]
    by_cases h : j = m
    · rw [if_pos h, h, div_self hm]
    · rw [if_neg h, hz j h, zero_div]
  have hfft : ∀ k : Fin N, npfft N (fun j => ((camNormPlant plant j : ℝ) : ℂ)) k
      = Complex.exp ((-(2 * Real.pi * k.val * m.val / N) : ℝ) * Complex.I) := by
    intro k
    unfold npfft
    rw [Finset.sum_eq_single m]
    · dsimp only
      rw [hnorm m, if_pos rfl]
      simp
    · intro j _ hj
      dsimp only
      rw [hnorm j, if_neg hj]
      simp
    · intro hnm
      exact absurd (Finset.mem_univ m) hnm
  constructor
  · intro k
    show Complex.abs (if cloud_speed > 0 then _ else _) = 1
    by_cases hpos : cloud_speed > 0
    · rw [if_pos hpos, hfft k, map_mul, Complex.abs_exp_ofReal_mul_I,
        mul_comm Complex.I, Complex.abs_exp_ofReal_mul_I]
      norm_num
    · rw [if_neg hpos, Complex.abs_conj, hfft k, map_mul,
        Complex.abs_exp_ofReal_mul_I, mul_comm Complex.I,
        Complex.abs_exp_ofReal_mul_I]
      norm_num
  · have hk0 : camFreq hN x_plant cloud_speed ⟨0, by omega⟩ = 0 := by
      unfold camFreq npfftfreq
      simp
    show (if cloud_speed > 0 then _ else _) = 1
    have hexp0 : npfft N (fun j => ((camNormPlant plant j : ℝ) : ℂ)) ⟨0, by omega⟩
        = 1 := by
      rw [hfft ⟨0, by omega⟩]
      norm_num
    by_cases hpos : cloud_speed > 0
    · rw [if_pos hpos, hexp0, hk0]
      norm_num
    · rw [if_neg hpos, hexp0, hk0]
      norm_num

/-- Witness for C4: two-cell plant `[1, 0]`, grid `[0, 1]`, unit cloud speed. -/
theorem C4_point_source_cam_witness :
    (plant1d_to_camfilter (by norm_num : 2 ≤ 2) ![1, 0] ![0, 1] 1
      ⟨0, by norm_num⟩).2 = 1 :=
  (C4_point_source_cam (by norm_num) ![1, 0] ![0, 1] 1 (by norm_num) 0
    (by norm_num) (by
      intro j hj
      fin_cases j
      · exact absurd rfl hj
      · simp)).2

/-- Witness for (amended) C8 at `dx = 1`, `xmax = 4`. -/
theorem C8_grid_structure_witness :
    (get_1d_plant [] 0 none "square" 1 4).map (fun P => P.xvec 0)
      = .ok (plantGridStart 4) := by
  obtain ⟨P, hP, h0, _, _⟩ := C8_grid_structure [] 1 4 (by norm_num) 1
  rw [hP]
  simpa [Except.map] using h0

/-- The auto-csd is the cast of a real number (sum of squared magnitudes). -/
lemma welchCsd_self (x : ℕ → ℝ) (N navgs : ℕ) (overlap dt : ℝ) (k : ℕ) :
    welchCsd x x N navgs overlap dt k
      = (((welchDbl (welchNperseg N navgs) k
            * (dt / ∑ j : Fin (welchNperseg N navgs),
                (hannWindow (welchNperseg N navgs) j) ^ 2)
            / (welchNsegs N navgs overlap))
          * ∑ s : Fin (welchNsegs N navgs overlap),
              Complex.normSq (dftAt (welchNperseg N navgs)
                (windowedSeg x (welchNperseg N navgs)
                  (welchNperseg N navgs - welchNoverlap N navgs overlap) s) k) : ℝ) : ℂ) := by
  unfold welchCsd
  rw [Finset.sum_congr rfl (fun s _ => (Complex.normSq_eq_conj_mul_self).symm)]
  push_cast
  ring

/-- C3 (amended): at every frequency bin where the input PSD is nonzero, the
self transfer function estimate is exactly `1` and the coherence is exactly
`1`. -/
theorem C3_self_tf (x : ℕ → ℝ) (N navgs : ℕ) (overlap dt : ℝ) (k : ℕ)
    (hpsd : averaged_psd x N navgs overlap dt k ≠ 0) :
    (averaged_tf x x N navgs overlap dt k).1 = 1 ∧
      (averaged_tf x x N navgs overlap dt k).2 = 1 := by
  set r : ℝ := (welchDbl (welchNperseg N navgs) k
      * (dt / ∑ j : Fin (welchNperseg N navgs),
          (hannWindow (welchNperseg N navgs) j) ^ 2)
      / (welchNsegs N navgs overlap))
    * ∑ s : Fin (welchNsegs N navgs overlap),
        Complex.normSq (dftAt (welchNperseg N navgs)
          (windowedSeg x (welchNperseg N navgs)
            (welchNperseg N navgs - welchNoverlap N navgs overlap) s) k) with hrdef
  have hcsd : welchCsd x x N navgs overlap dt k = (r : ℂ) := welchCsd_self x N navgs overlap dt k
  have hre : averaged_psd x N navgs overlap dt k = r := by
    unfold averaged_psd
    rw [hcsd]
    exact Complex.ofReal_re r
  have hrne : r ≠ 0 := hre ▸ hpsd
  constructor
  · show welchCsd x x N navgs overlap dt k
      / ((averaged_psd x N navgs overlap dt k : ℝ) : ℂ) = 1
    rw [hcsd, hre]
    exact div_self (Complex.ofReal_ne_zero.mpr hrne)
  · show welchCoherence x x N navgs overlap dt k = 1
    unfold welchCoherence
    rw [hcsd, hre, Complex.abs_ofReal]
    rw [show |r| ^ 2 = r * r from by rw [pow_two, abs_mul_abs_self]]
    exact div_self (mul_ne_zero hrne hrne)

lemma lsSlope_zero (M : ℕ) : lsSlope M (fun _ => 0) = 0 := by
  unfold lsSlope
  simp

/-- Detrending the zero signal yields the zero signal. -/
lemma detrendLinear_zero (M : ℕ) : detrendLinear M (fun _ => 0) = fun _ => 0 := by
  funext j
  unfold detrendLinear lsIntercept
  rw [lsSlope_zero]
  simp

/-- C3 counterexample: for the all-zero signal (PSD identically zero) the
self transfer function is `0/0 = NaN` in the source (value 0 in the model) and
the coherence likewise: neither equals 1, so the unconditional claim fails. -/
theorem C3_counterexample :
    (averaged_tf (fun _ => 0) (fun _ => 0) 2 1 (1 / 2) 1 0).1 ≠ 1 ∧
      (averaged_tf (fun _ => 0) (fun _ => 0) 2 1 (1 / 2) 1 0).2 ≠ 1 := by
  have hseg : ∀ (s : ℕ) (j : Fin (welchNperseg 2 1)),
      windowedSeg (fun _ => 0) (welchNperseg 2 1)
        (welchNperseg 2 1 - welchNoverlap 2 1 (1 / 2)) s j = 0 := by
    intro s j
    show ((detrendLinear (welchNperseg 2 1) (fun _ => (0 : ℝ)) j
        * hannWindow (welchNperseg 2 1) j : ℝ) : ℂ) = 0
    rw [detrendLinear_zero]
    simp
  have hdft : ∀ (s k : ℕ), dftAt (welchNperseg 2 1)
      (windowedSeg (fun _ => 0) (welchNperseg 2 1)
        (welchNperseg 2 1 - welchNoverlap 2 1 (1 / 2)) s) k = 0 := by
    intro s k
    unfold dftAt
    refine Finset.sum_eq_zero fun m _ => ?_
    rw [hseg s m, zero_mul]
  have hcsd : welchCsd (fun _ => 0) (fun _ => 0) 2 1 (1 / 2) 1 0 = 0 := by
    have h0 : (∑ s : Fin (welchNsegs 2 1 (1 / 2)),
        (starRingEnd ℂ) (dftAt (welchNperseg 2 1) (windowedSeg (fun _ => 0) (welchNperseg 2 1)
            (welchNperseg 2 1 - welchNoverlap 2 1 (1 / 2)) ↑s) 0)
          * dftAt (welchNperseg 2 1) (windowedSeg (fun _ => 0) (welchNperseg 2 1)
            (welchNperseg 2 1 - welchNoverlap 2 1 (1 / 2)) ↑s) 0) = 0 :=
      Finset.sum_eq_zero fun s _ => by rw [hdft ↑s 0, map_zero, zero_mul]
    unfold welchCsd
    rw [h0, mul_zero]
  have hpsd : averaged_psd (fun _ => 0) 2 1 (1 / 2) 1 0 = 0 := by
    unfold averaged_psd
    rw [hcsd]
    rfl
  constructor
  · show welchCsd (fun _ => 0) (fun _ => 0) 2 1 (1 / 2) 1 0
      / ((averaged_psd (fun _ => 0) 2 1 (1 / 2) 1 0 : ℝ) : ℂ) ≠ 1
    rw [hcsd, hpsd]
    norm_num
  · show welchCoherence (fun _ => 0) (fun _ => 0) 2 1 (1 / 2) 1 0 ≠ 1
    unfold welchCoherence
    rw [hcsd, hpsd]
    norm_num

lemma cos_two_pi_div_three : Real.cos (2 * Real.pi / 3) = -(1 / 2) := by
  rw [show (2 * Real.pi / 3 : ℝ) = Real.pi - Real.pi / 3 by ring, Real.cos_pi_sub,
    Real.cos_pi_div_three]

lemma cos_four_pi_div_three : Real.cos (4 * Real.pi / 3) = -(1 / 2) := by
  rw [show (4 * Real.pi / 3 : ℝ) = -(2 * Real.pi / 3) + 2 * Real.pi by ring,
    Real.cos_add_two_pi, Real.cos_neg, cos_two_pi_div_three]

/-- Witness for (amended) C3: the three-sample unit impulse with one segment
has strictly positive PSD at the DC bin, and the self-estimate is (1, 1). -/
theorem C3_self_tf_witness :
    (averaged_tf (fun n => if n = 0 then (1 : ℝ) else 0)
        (fun n => if n = 0 then (1 : ℝ) else 0) 3 1 (1 / 2) 1 0).1 = 1 ∧
      (averaged_tf (fun n => if n = 0 then (1 : ℝ) else 0)
        (fun n => if n = 0 then (1 : ℝ) else 0) 3 1 (1 / 2) 1 0).2 = 1 := by
  apply C3_self_tf
  have hw0 : hannWindow 3 (0 : Fin 3) = 0 := by
    unfold hannWindow
    norm_num
  have hw1 : hannWindow 3 (1 : Fin 3) = 3 / 4 := by
    unfold hannWindow
    rw [show (2 * Real.pi * ((((1 : Fin 3) : ℕ)) : ℝ) / (((3 : ℕ)) : ℝ) : ℝ)
      = 2 * Real.pi / 3 from by
        simp only [Fin.val_one]
        push_cast
        ring]
    rw [cos_two_pi_div_three]
    norm_num
  have hw2 : hannWindow 3 (2 : Fin 3) = 3 / 4 := by
    unfold hannWindow
    rw [show (2 * Real.pi * ((((2 : Fin 3) : ℕ)) : ℝ) / (((3 : ℕ)) : ℝ) : ℝ)
      = 4 * Real.pi / 3 from by
        simp only [Fin.val_two]
        push_cast
        ring]
    rw [cos_four_pi_div_three]
    norm_num
  have hwsum : (∑ j : Fin 3, hannWindow 3 j ^ 2) = 9 / 8 := by
    rw [Fin.sum_univ_three, hw0, hw1, hw2]
    norm_num
  have hns : welchNsegs 3 1 (1 / 2) = 1 := by
    unfold welchNsegs
    rw [show (3 - welchNperseg 3 1) = 0 from rfl, Nat.zero_div]
  have hy : (fun t : Fin 3 =>
        (fun n => if n = 0 then (1 : ℝ) else 0) (0 * (3 - welchNoverlap 3 1 (1 / 2)) + ↑t))
      = (fun t : Fin 3 => if (t : ℕ) = 0 then (1 : ℝ) else 0) := by
    funext t
    simp
  have hsl : lsSlope 3 (fun t : Fin 3 => if (t : ℕ) = 0 then (1 : ℝ) else 0) = -(1 / 2) := by
    unfold lsSlope
    rw [Fin.sum_univ_three, Fin.sum_univ_three, Fin.sum_univ_three, Fin.sum_univ_three]
    norm_num
  have hsi : lsIntercept 3 (fun t : Fin 3 => if (t : ℕ) = 0 then (1 : ℝ) else 0) = 5 / 6 := by
    unfold lsIntercept
    rw [hsl, Fin.sum_univ_three, Fin.sum_univ_three]
    norm_num
  have hF0 : dftAt 3 (windowedSeg (fun n => if n = 0 then (1 : ℝ) else 0) 3
      (3 - welchNoverlap 3 1 (1 / 2)) 0) 0 = ((-(1 / 8) : ℝ) : ℂ) := by
    unfold dftAt windowedSeg
    rw [Fin.sum_univ_three]
    rw [hy]
    unfold detrendLinear
    rw [hsl, hsi, hw0, hw1, hw2]
    push_cast
    norm_num
  have hcsd := welchCsd_self (fun n => if n = 0 then (1 : ℝ) else 0) 3 1 (1 / 2) 1 0
  unfold averaged_psd
  rw [hcsd, Complex.ofReal_re]
  apply ne_of_gt
  apply mul_pos
  · have hwsum' : (∑ j : Fin (welchNperseg 3 1),
        hannWindow (welchNperseg 3 1) j ^ 2) = 9 / 8 := hwsum
    rw [show welchDbl (welchNperseg 3 1) 0 = 1 from rfl, hwsum', hns]
    norm_num
  · apply Finset.sum_pos'
    · intro s _
      exact Complex.normSq_nonneg _
    · refine ⟨⟨0, by rw [hns]; norm_num⟩, Finset.mem_univ _, ?_⟩
      show (0 : ℝ) < Complex.normSq (dftAt 3 (windowedSeg
        (fun n => if n = 0 then (1 : ℝ) else 0) 3 (3 - welchNoverlap 3 1 (1 / 2)) 0) 0)
      rw [hF0, Complex.normSq_ofReal]
      norm_num

end
